import Mathlib

/-!
Shallow embedding of the Ratus task queue engine (github.com/hyperonym/ratus).

Conventions of the embedding:

* Timestamps (`time.Time` values) are modelled as `Int` values in Unix
  milliseconds, matching the millisecond resolution used by the composite
  indexes (`TimeFieldIndex` encodes `t.UnixMilli()`).  Comparisons such as
  `time.Time.After` become strict `<` on the millisecond values.
* Go duration strings (the `Defer` and `Timeout` fields, parsed with
  `time.ParseDuration`) are abstracted to their parse result `DurationStr`:
  the empty string, an unparsable string, or a duration in milliseconds.
* The opaque task payload (`any` in Go, `nil` meaning absent) is modelled as
  `Option Payload` with `Payload` an opaque token type; no verified operation
  inspects payload contents, they are only copied and compared for presence.
* Random nonce generation (`nonce.Generate(ratus.NonceLength)`) is modelled by
  passing the freshly generated string as an explicit argument; the generator
  always returns a string of exactly `NonceLength = 16` characters.
* The go-memdb table of tasks is modelled as a `List Task`; the unique `id`
  index makes ids unique in well-formed stores.  `txn.First(tableTask, "id")`
  is `find?` on the id, `txn.Insert` replaces the row with the same id or
  appends, `txn.Delete` removes by id.
-/

namespace Ratus

/-- Task state (`ratus.TaskState`, a Go `int32`).  Kept as an integer because
unvalidated inputs may carry out-of-range states. -/
abbrev TaskState := Int

/-- The "pending" state (`ratus.TaskStatePending = 0`). -/
def TaskStatePending : TaskState := 0

/-- The "active" state (`ratus.TaskStateActive = 1`). -/
def TaskStateActive : TaskState := 1

/-- The "completed" state (`ratus.TaskStateCompleted = 2`). -/
def TaskStateCompleted : TaskState := 2

/-- The "archived" state (`ratus.TaskStateArchived = 3`). -/
def TaskStateArchived : TaskState := 3

/-- Length of generated nonce strings (`ratus.NonceLength`). -/
def NonceLength : Nat := 16

/-- Opaque task payload.  The Go field has type `any`; its structure is
irrelevant to every verified operation (payloads are only copied whole), so a
payload is modelled as an opaque token. -/
abbrev Payload := String

/-- Result of parsing a Go duration string with `time.ParseDuration`:
the empty string, a non-empty string that fails to parse, or a non-empty
string parsing to the given number of milliseconds. -/
inductive DurationStr where
  | empty
  | invalid
  | value (ms : Int)
deriving DecidableEq, Repr

/-- The task record (`ratus.Task`).  Pointer-typed timestamp fields become
`Option Int` (Unix milliseconds); `Payload any` becomes `Option Payload`;
the `Defer` duration string becomes `DurationStr`. -/
structure Task where
  id : String
  topic : String
  state : TaskState
  nonce : String
  producer : String
  consumer : String
  produced : Option Int
  scheduled : Option Int
  consumed : Option Int
  deadline : Option Int
  payload : Option Payload
  deferDur : DurationStr
deriving DecidableEq, Repr

/-- The promise record (`ratus.Promise`). -/
structure Promise where
  id : String
  consumer : String
  deadline : Option Int
  timeout : DurationStr
deriving DecidableEq, Repr

/-- The commit record (`ratus.Commit`). -/
structure Commit where
  nonce : String
  topic : String
  state : Option TaskState
  scheduled : Option Int
  payload : Option Payload
  deferDur : DurationStr
deriving DecidableEq, Repr

/-- Sentinel error values of package `ratus` (`ratus.ErrNotFound` and
friends).  Engine operations return these unwrapped. -/
inductive ErrValue where
  | badRequest
  | notFound
  | conflict
  | clientClosedRequest
  | internalServerError
  | serviceUnavailable
deriving DecidableEq, Repr

/-- Message text carried by each sentinel error (`errors.New(...)`). -/
def sentinelText : ErrValue → String
  | .badRequest => "bad request"
  | .notFound => "not found"
  | .conflict => "conflict"
  | .clientClosedRequest => "client closed request"
  | .internalServerError => "internal server error"
  | .serviceUnavailable => "service unavailable"

namespace Memdb

/-- Lookup by the unique id index: `txn.First(tableTask, indexID, id)`. -/
def txnFirstById (db : List Task) (id : String) : Option Task :=
  db.find? (fun t => t.id = id)

/-- Write through the unique id index: `txn.Insert(tableTask, u)` replaces the
row carrying the same id, or appends a new row. -/
def txnInsert (db : List Task) (u : Task) : List Task :=
  if db.any (fun t => t.id = u.id) then
    db.map (fun t => if t.id = u.id then u else t)
  else
    db ++ [u]

/-- Copy of the task with the state set back to "pending" and the nonce field
cleared (`updateOpsRecover` in `internal/engine/memdb/memdb.go`). -/
def updateOpsRecover (v : Task) : Task :=
  { v with state := TaskStatePending, nonce := "" }

/-- Copy of the task with the state set to "active" and fields populated from
the promise (`updateOpsConsume` in `internal/engine/memdb/memdb.go`).  The
`fresh` argument stands for `nonce.Generate(ratus.NonceLength)`. -/
def updateOpsConsume (v : Task) (p : Promise) (t : Int) (fresh : String) : Task :=
  { v with
    state := TaskStateActive
    nonce := fresh
    consumer := p.consumer
    consumed := some t
    deadline := p.deadline }

/-- Copy of the task with the updates of the commit applied to it
(`updateOpsCommit` in `internal/engine/memdb/memdb.go`). -/
def updateOpsCommit (v : Task) (m : Commit) : Task :=
  let u := { v with nonce := "" }
  let u := if m.topic ≠ "" then { u with topic := m.topic } else u
  let u := match m.state with
    | some s => { u with state := s }
    | none => u
  let u := match m.scheduled with
    | some s => { u with scheduled := some s }
    | none => u
  match m.payload with
  | some p => { u with payload := some p }
  | none => u

/-- `GetPromise` of the MemDB engine (`internal/engine/memdb/promise.go`):
look up the task by id and project the promise fields.  Note that the source
returns not-found unless the task state equals `TaskStatePending`. -/
def getPromise (db : List Task) (id : String) : Except ErrValue Promise :=
  match txnFirstById db id with
  | none => .error .notFound
  | some t =>
    if t.state ≠ TaskStatePending then .error .notFound
    else .ok { id := t.id, consumer := t.consumer, deadline := t.deadline, timeout := .empty }

/-- `DeletePromise` of the MemDB engine (`internal/engine/memdb/promise.go`):
if the task exists and is active, write back its recovered copy and report one
deletion; otherwise report zero deletions.  The returned integer is the
`Deleted` count. -/
def deletePromise (db : List Task) (id : String) : Except ErrValue (Int × List Task) :=
  match txnFirstById db id with
  | none => .ok (0, db)
  | some t =>
    if t.state = TaskStateActive then
      .ok (1, txnInsert db (updateOpsRecover t))
    else
      .ok (0, db)

/-- Membership in the partial composite index `pending-topic-scheduled`.
A task is indexed iff its state equals the partial filter value
(`StateFieldIndex` returns no key for other states), its topic string is
non-empty (`memdb.StringFieldIndex` does not index empty strings), and its
scheduled time is non-nil (`TimeFieldIndex` returns no key for nil fields). -/
def pendingIndexed (t : Task) : Bool :=
  t.state == TaskStatePending && t.topic != "" && t.scheduled.isSome

/-- Strict lexicographic order on character lists. -/
def charListLt : List Char → List Char → Bool
  | [], [] => false
  | [], _ :: _ => true
  | _ :: _, [] => false
  | a :: as, b :: bs =>
    if a < b then true
    else if a = b then charListLt as bs
    else false

/-- Strict lexicographic order on strings by code point, which agrees with the
byte order of their UTF-8 encodings used by the radix tree. -/
def strLt (s t : String) : Bool :=
  charListLt s.data t.data

/-- Order of keys in the `pending-topic-scheduled` index.  Keys are the
concatenation of the topic (with a terminating zero byte), the big-endian
sign-flipped `UnixMilli` of the scheduled time, and the task id appended by
go-memdb for non-unique indexes.  On zero-byte-free strings this byte order
coincides with the lexicographic order on `(topic, scheduledMs, id)`. -/
def pendingKeyLt (a b : Task) : Bool :=
  strLt a.topic b.topic ||
    (a.topic == b.topic &&
      (a.scheduled.getD 0 < b.scheduled.getD 0 ||
        (a.scheduled.getD 0 == b.scheduled.getD 0 && strLt a.id b.id)))

/-- Whether an indexed key is at or after the seek position used by `Poll`,
namely `LowerBound(indexPendingTopicScheduled, Pending, topic, UnixMilli(0))`.
The bound key carries the polled topic and the encoding of time zero, so a key
qualifies iff its topic is lexicographically later than the polled topic, or
the topics agree and the scheduled time is at or after the Unix epoch.  The
iterator of `LowerBound` is not bounded to the given prefix: it keeps walking
the index past the end of the polled topic. -/
def pendingFromBound (topic : String) (t : Task) : Bool :=
  pendingIndexed t && (strLt topic t.topic || (topic == t.topic && decide (0 ≤ t.scheduled.getD 0)))

/-- First result of the `LowerBound` iterator used by `Poll`: the indexed task
with the smallest key at or after the seek position, or `none` when the rest
of the index is empty.  In a well-formed store ids are unique, hence keys are
distinct and the minimum is unambiguous. -/
def lowerBoundPendingFirst (db : List Task) (topic : String) : Option Task :=
  db.foldl
    (fun acc t =>
      if pendingFromBound topic t then
        match acc with
        | none => some t
        | some u => if pendingKeyLt t u then some t else some u
      else acc)
    none

/-- Whether an optional scheduled time is strictly after `now`
(`t.Scheduled != nil && t.Scheduled.After(n)`). -/
def schedAfter (s : Option Int) (now : Int) : Bool :=
  match s with
  | some v => decide (now < v)
  | none => false

/-- `Poll` of the MemDB engine (`internal/engine/memdb/queue.go`): take the
first result of the lower-bound iterator, refuse it when its scheduled time
has not arrived, and otherwise write back and return its consumed copy.  The
source performs no topic check on the task returned by the iterator. -/
def poll (db : List Task) (topic : String) (p : Promise) (now : Int) (fresh : String) :
    Except ErrValue (Task × List Task) :=
  match lowerBoundPendingFirst db topic with
  | none => .error .notFound
  | some t =>
    if schedAfter t.scheduled now then .error .notFound
    else
      let u := updateOpsConsume t p now fresh
      .ok (u, txnInsert db u)

/-- `Commit` of the MemDB engine (`internal/engine/memdb/queue.go`): look up
the task by id, verify the nonce if provided, and write back the updated
copy.  Errors abort the transaction, leaving the store unchanged. -/
def commit (db : List Task) (id : String) (m : Commit) :
    Except ErrValue (Task × List Task) :=
  match txnFirstById db id with
  | none => .error .notFound
  | some t =>
    if m.nonce ≠ "" ∧ m.nonce ≠ t.nonce then .error .conflict
    else
      let u := updateOpsCommit t m
      .ok (u, txnInsert db u)

/-- Whether the recovery sweep of `Chore` reaches and resets this task.  The
sweep walks the partial index `active-deadline` from
`LowerBound(Active, UnixMilli(0))` and breaks at the first task whose deadline
is after `now`; since the index is ordered by the deadline, the processed
tasks are exactly the active ones whose deadline is set, at or after the Unix
epoch, and not after `now`.  Active tasks with a nil deadline are absent from
the index, and ones with a pre-epoch deadline lie before the seek position. -/
def choreRecovers (now : Int) (t : Task) : Bool :=
  t.state == TaskStateActive &&
    (match t.deadline with
     | some d => decide (0 ≤ d) && decide (d ≤ now)
     | none => false)

/-- Whether the expiration sweep of `Chore` deletes this task.  The sweep
walks the partial index `completed-consumed` from
`LowerBound(Completed, UnixMilli(0))` and breaks at the first task with
`consumed + retention` after `now`. -/
def choreExpires (now retention : Int) (t : Task) : Bool :=
  t.state == TaskStateCompleted &&
    (match t.consumed with
     | some c => decide (0 ≤ c) && decide (c + retention ≤ now)
     | none => false)

/-- `Chore` of the MemDB engine (`internal/engine/memdb/queue.go`): recover
the timed-out active tasks, then delete the expired completed tasks.  Both
sweeps iterate snapshots (go-memdb iterators are immutable), and the recovery
sweep never produces completed tasks, so the two phases compose as a map
followed by a filter. -/
def chore (db : List Task) (now retention : Int) : List Task :=
  (db.map (fun t => if choreRecovers now t then updateOpsRecover t else t)).filter
    (fun t => !choreExpires now retention t)

/-- `InsertTask` of the MemDB engine (`internal/engine/memdb/task.go`). -/
def insertTask (db : List Task) (t : Task) : Except ErrValue (Int × List Task) :=
  if db.any (fun v => v.id = t.id) then .error .conflict
  else .ok (1, db ++ [t])

/-- `UpsertTask` of the MemDB engine (`internal/engine/memdb/task.go`). -/
def upsertTask (db : List Task) (t : Task) : Int × List Task :=
  (if db.any (fun v => v.id = t.id) then 1 else 0, txnInsert db t)

/-- `InsertTasks` of the MemDB engine (`internal/engine/memdb/task.go`):
insert each task in order, skipping ids that already exist, and count the
creations. -/
def insertTasks (db : List Task) : List Task → Int × List Task
  | [] => (0, db)
  | t :: ts =>
    if db.any (fun v => v.id = t.id) then insertTasks db ts
    else
      let r := insertTasks (db ++ [t]) ts
      (r.1 + 1, r.2)

/-- `UpsertTasks` of the MemDB engine (`internal/engine/memdb/task.go`). -/
def upsertTasks (db : List Task) : List Task → Int × List Task
  | [] => (0, db)
  | t :: ts =>
    let c : Int := if db.any (fun v => v.id = t.id) then 0 else 1
    let r := upsertTasks (txnInsert db t) ts
    (r.1 + c, r.2)

/-- `InsertPromise` of the MemDB engine (`internal/engine/memdb/promise.go`):
claim the target task only if it is in pending state. -/
def insertPromise (db : List Task) (p : Promise) (now : Int) (fresh : String) :
    Except ErrValue (Task × List Task) :=
  match txnFirstById db p.id with
  | none => .error .notFound
  | some t =>
    if t.state ≠ TaskStatePending then .error .conflict
    else
      let u := updateOpsConsume t p now fresh
      .ok (u, txnInsert db u)

/-- `UpsertPromise` of the MemDB engine (`internal/engine/memdb/promise.go`):
claim the target task regardless of its current state. -/
def upsertPromise (db : List Task) (p : Promise) (now : Int) (fresh : String) :
    Except ErrValue (Task × List Task) :=
  match txnFirstById db p.id with
  | none => .error .notFound
  | some t =>
    let u := updateOpsConsume t p now fresh
    .ok (u, txnInsert db u)

/-- `DeletePromises` of the MemDB engine (`internal/engine/memdb/promise.go`):
iterate the `active-topic` index (which holds active tasks with a non-empty
topic equal to the argument) and write back recovered copies. -/
def deletePromises (db : List Task) (topic : String) : Int × List Task :=
  let xs := db.filter (fun t => t.state == TaskStateActive && t.topic == topic && t.topic != "")
  ((xs.length : Int), xs.foldl (fun acc t => txnInsert acc (updateOpsRecover t)) db)

/-- The 8 bytes written by `binary.BigEndian.PutUint64`, most significant
first; `byte(v >> s)` truncates to the low 8 bits, i.e. divides by `2 ^ s` and
reduces modulo 256. -/
def putUint64BE (u : Nat) : List Nat :=
  [u / 2 ^ 56 % 256, u / 2 ^ 48 % 256, u / 2 ^ 40 % 256, u / 2 ^ 32 % 256,
   u / 2 ^ 24 % 256, u / 2 ^ 16 % 256, u / 2 ^ 8 % 256, u % 256]

/-- Lexicographic order on byte strings, as used by the radix tree backing
go-memdb indexes: a shorter string precedes its extensions, and otherwise the
first differing byte decides. -/
def byteLexLe : List Nat → List Nat → Bool
  | [], _ => true
  | _ :: _, [] => false
  | a :: as, b :: bs =>
    if a < b then true
    else if a = b then byteLexLe as bs
    else false

/-- Big-endian digits of a number in base 256, fixed width.  Helper used to
reason about `putUint64BE` by induction on the width. -/
def bytesBE : Nat → Nat → List Nat
  | 0, _ => []
  | k + 1, u => u / 256 ^ k % 256 :: bytesBE k (u % 256 ^ k)

/-- `encodeInt64` of `TimeFieldIndex` (the memdb indexer file): flip the sign
bit of the 64-bit twos-complement representation (`v ^ int64(-1 << 63)`) and
write the result big-endian.  Twos-complement representation of `v : Int` is
`(v % 2 ^ 64).toNat`, and the constant `int64(-1 << 63)` has representation
`2 ^ 63`, so the flip is a `Nat` xor with `2 ^ 63`. -/
def encodeInt64 (v : Int) : List Nat :=
  putUint64BE (((v % (2 : Int) ^ 64).toNat) ^^^ 2 ^ 63)

end Memdb

namespace Mongo

/-- Copy of a task document with the `$set` update operators of
`updateOpsCommit` (`internal/engine/mongodb/mongodb.go`) applied: the nonce is
always cleared, and topic, state, scheduled and payload are overwritten when
set in the commit. -/
def updateOpsCommit (v : Task) (m : Commit) : Task :=
  let u := { v with nonce := "" }
  let u := if m.topic ≠ "" then { u with topic := m.topic } else u
  let u := match m.state with
    | some s => { u with state := s }
    | none => u
  let u := match m.scheduled with
    | some s => { u with scheduled := some s }
    | none => u
  match m.payload with
  | some p => { u with payload := some p }
  | none => u

/-- `findOneAndUpdate` with `ReturnDocument(After)` over a collection of task
documents: update the first document matching the filter and return the
updated document, or report no match. -/
def findOneAndUpdate (filt : Task → Bool) (upd : Task → Task) :
    List Task → Option Task × List Task
  | [] => (none, [])
  | t :: ts =>
    if filt t then (some (upd t), upd t :: ts)
    else
      let r := findOneAndUpdate filt upd ts
      (r.1, t :: r.2)

/-- The `exists` probe of the MongoDB engine (`g.exists` built on `peek`):
whether any document matches the filter. -/
def existsMatch (col : List Task) (filt : Task → Bool) : Bool :=
  col.any filt

/-- `commitAtomic` of the MongoDB engine (`internal/engine/mongodb/queue.go`):
a single conditional `findAndModify` keyed on the id, with the nonce appended
to the filter when provided.  On no match, the failure is a conflict when a
nonce was provided and a document with the id exists, and not-found
otherwise. -/
def commitAtomic (col : List Task) (id : String) (m : Commit) :
    Except ErrValue (Task × List Task) :=
  match findOneAndUpdate (fun t => t.id == id && (m.nonce == "" || t.nonce == m.nonce))
      (fun t => updateOpsCommit t m) col with
  | (some v, col2) => .ok (v, col2)
  | (none, _) =>
    if m.nonce ≠ "" ∧ existsMatch col (fun t => t.id == id) then .error .conflict
    else .error .notFound

/-- `GetPromise` of the MongoDB engine (`internal/engine/mongodb/promise.go`):
find the document with the given id and state "active" and decode its promise
fields; `ErrNoDocuments` becomes not-found. -/
def getPromise (col : List Task) (id : String) : Except ErrValue Promise :=
  match col.find? (fun t => t.id == id && t.state == TaskStateActive) with
  | none => .error .notFound
  | some t => .ok { id := t.id, consumer := t.consumer, deadline := t.deadline, timeout := .empty }

/-- The `$set` update operators of `updateOpsRecover`
(`internal/engine/mongodb/mongodb.go`) applied to a document: set the state
back to "pending" and clear the nonce field. -/
def updateOpsRecover (v : Task) : Task :=
  { v with state := TaskStatePending, nonce := "" }

/-- `UpdateOne` with `SetUpsert(false)` over a collection of task documents:
apply the update to the first document matching the filter and report the
modified count (0 or 1).  The recover update always changes a matched
document (the filter requires the active state, the update writes the
pending state), so the modified count equals the matched count here. -/
def updateOne (filt : Task → Bool) (upd : Task → Task) : List Task → Int × List Task
  | [] => (0, [])
  | t :: ts =>
    if filt t then (1, upd t :: ts)
    else
      let r := updateOne filt upd ts
      (r.1, t :: r.2)

/-- `DeletePromise` of the MongoDB engine
(`internal/engine/mongodb/promise.go`): a single `UpdateOne` with the filter
`{_id: id, state: active}` and the recover update; the returned `Deleted`
count is the modified count.  The only error path is a server error from
`UpdateOne`, so absent server failures the call always succeeds. -/
def deletePromise (col : List Task) (id : String) : Except ErrValue (Int × List Task) :=
  .ok (updateOne (fun t => t.id == id && t.state == TaskStateActive) updateOpsRecover col)

end Mongo

namespace Middleware

/-- Default timeout duration for task execution (`ratus.DefaultTimeout`, the
string "10m", which parses to 600000 milliseconds). -/
def DefaultTimeout : DurationStr := .value 600000

/-- Normalization of a task against the path parameters
(`normalizeTask` in `internal/middleware/task.go`).  Errors surface as the
message strings of the Go implementation. -/
def normalizeTask (t0 : Task) (id topic : String) (now : Int) : Except String Task :=
  let t := if t0.id = "" then { t0 with id := id } else t0
  if t.id = "" then .error ("task ID must not be empty")
  else if id ≠ "" ∧ t.id ≠ id then .error ("task ID is inconsistent with the path parameter")
  else
    let t := if t.topic = "" ∧ topic ≠ "" then { t with topic := topic } else t
    if t.topic = "" then .error ("topic must not be empty")
    else if t.state < TaskStatePending ∨ TaskStateArchived < t.state then .error ("invalid state")
    else
      let t := if t.produced = none then { t with produced := some now } else t
      match t.deferDur, t.scheduled with
      | .invalid, none => .error ("time: invalid duration")
      | .value d, none => .ok { t with scheduled := some (now + d), deferDur := .empty }
      | _, _ =>
        let t := if t.scheduled = none then { t with scheduled := some now } else t
        .ok { t with deferDur := .empty }

/-- Normalization of a promise against the path id
(`normalizePromise` in the promise middleware file). -/
def normalizePromise (p0 : Promise) (id : String) (now : Int) : Except String Promise :=
  let p := if id ≠ "" ∧ p0.id = "" then { p0 with id := id } else p0
  if id ≠ "" ∧ p.id ≠ id then .error ("promise ID is inconsistent with the path parameter")
  else
    match p.deadline with
    | some _ => .ok { p with timeout := .empty }
    | none =>
      let p := if p.timeout = .empty then { p with timeout := DefaultTimeout } else p
      match p.timeout with
      | .value d => .ok { p with deadline := some (now + d), timeout := .empty }
      | _ => .error ("time: invalid duration")

/-- Normalization of a commit (`normalizeCommit` in the commit middleware
file): default a nil state to "completed", validate the state range, convert a
defer duration into an absolute scheduled time, and clear the defer field. -/
def normalizeCommit (m0 : Commit) (now : Int) : Except String Commit :=
  let s := match m0.state with
    | none => TaskStateCompleted
    | some s => s
  let m := { m0 with state := some s }
  if s < TaskStatePending ∨ TaskStateArchived < s then .error ("invalid target state")
  else
    match m.deferDur, m.scheduled with
    | .invalid, none => .error ("time: invalid duration")
    | .value d, none => .ok { m with scheduled := some (now + d), deferDur := .empty }
    | _, _ => .ok { m with deferDur := .empty }

/-- Outcome of `c.ShouldBindJSON` on a request body: the body is empty
(`io.EOF`), the body fails to bind with some message, or a value was bound. -/
inductive BindResult (α : Type) where
  | eof
  | failed (msg : String)
  | ok (a : α)

/-- The serialized error payload (`ratus.Error`): an HTTP status code and the
rendered message chain. -/
structure ErrorBody where
  code : Int
  message : String
deriving DecidableEq, Repr

/-- Status code chosen by `ratus.NewError` for each sentinel error. -/
def newErrorCode : ErrValue → Int
  | .clientClosedRequest => 499
  | .badRequest => 400
  | .notFound => 404
  | .conflict => 409
  | .serviceUnavailable => 503
  | .internalServerError => 500

/-- Rendering of `fmt.Errorf("%w: extra", sentinel)` followed by
`ratus.NewError`: the code of the sentinel and the wrapped message chain. -/
def wrappedError (e : ErrValue) (extra : String) : ErrorBody :=
  { code := newErrorCode e, message := sentinelText e ++ ": " ++ extra }

/-- The zero value of `ratus.Task`, produced by `var t ratus.Task`. -/
def zeroTask : Task :=
  { id := "", topic := "", state := TaskStatePending, nonce := "", producer := "",
    consumer := "", produced := none, scheduled := none, consumed := none,
    deadline := none, payload := none, deferDur := .empty }

/-- The zero value of `ratus.Promise`. -/
def zeroPromise : Promise :=
  { id := "", consumer := "", deadline := none, timeout := .empty }

/-- The zero value of `ratus.Commit`. -/
def zeroCommit : Commit :=
  { nonce := "", topic := "", state := none, scheduled := none, payload := none,
    deferDur := .empty }

/-- The task middleware (`Task()` in `internal/middleware/task.go`): an empty
body is rejected as a bad request with the message "missing request body",
other binding failures propagate their message, and a bound task is
normalized against the path parameters. -/
def taskMiddleware (body : BindResult Task) (id topic : String) (now : Int) :
    Except ErrorBody Task :=
  match body with
  | .eof => .error (wrappedError .badRequest ("missing request body"))
  | .failed msg => .error (wrappedError .badRequest msg)
  | .ok t =>
    match normalizeTask t id topic now with
    | .error e => .error (wrappedError .badRequest e)
    | .ok t2 => .ok t2

/-- The batch task middleware (`Tasks()` in `internal/middleware/task.go`):
same body handling as the task middleware, then per-task normalization
without a path id. -/
def tasksMiddleware (body : BindResult (List Task)) (topic : String) (now : Int) :
    Except ErrorBody (List Task) :=
  match body with
  | .eof => .error (wrappedError .badRequest ("missing request body"))
  | .failed msg => .error (wrappedError .badRequest msg)
  | .ok ts =>
    let rec go : List Task → Except ErrorBody (List Task)
      | [] => .ok []
      | t :: rest =>
        match normalizeTask t ("") topic now with
        | .error e => .error (wrappedError .badRequest e)
        | .ok t2 =>
          match go rest with
          | .error e => .error e
          | .ok rest2 => .ok (t2 :: rest2)
    go ts

/-- The promise middleware (`Promise()` in the promise middleware file).  The
return value of `ShouldBindJSON` is deliberately ignored, so an empty or
malformed body leaves the zero-valued promise in place; query binding is
modelled for a request without query parameters, which also leaves the value
unchanged.  Normalization then runs on the resulting promise. -/
def promiseMiddleware (body : BindResult Promise) (id : String) (now : Int) :
    Except ErrorBody Promise :=
  let p := match body with
    | .ok a => a
    | _ => zeroPromise
  match normalizePromise p id now with
  | .error e => .error (wrappedError .badRequest e)
  | .ok p2 => .ok p2

/-- The commit middleware (`Commit()` in the commit middleware file).  All
fields of a commit are optional and the return value of `ShouldBindJSON` is
deliberately ignored, so an empty body yields the zero-valued commit, which
normalization turns into a commit to the "completed" state. -/
def commitMiddleware (body : BindResult Commit) (now : Int) :
    Except ErrorBody Commit :=
  let m := match body with
    | .ok a => a
    | _ => zeroCommit
  match normalizeCommit m now with
  | .error e => .error (wrappedError .badRequest e)
  | .ok m2 => .ok m2

end Middleware

namespace Controller

open Middleware

/-- Serialization of an engine error by `PatchTask`
(`internal/controller/task.go`): a conflict from `Commit` is re-decorated
with a hint before `send` renders it through `ratus.NewError`. -/
def patchTaskError (e : ErrValue) : ErrorBody :=
  if e = .conflict then wrappedError .conflict ("the task may have been modified by others")
  else { code := newErrorCode e, message := sentinelText e }

/-- Serialization of an engine error by `PostTask`
(`internal/controller/task.go`). -/
def postTaskError (e : ErrValue) : ErrorBody :=
  if e = .conflict then wrappedError .conflict ("a task with the same ID already exists")
  else { code := newErrorCode e, message := sentinelText e }

/-- Serialization of an engine error by `PostPromise`
(`internal/controller/promise.go`). -/
def postPromiseError (e : ErrValue) : ErrorBody :=
  if e = .conflict then wrappedError .conflict ("a promise for the same task already exists")
  else { code := newErrorCode e, message := sentinelText e }

end Controller

/-- Sample task in active state used to evaluate GetPromise. -/
def promiseTargetActive : Task :=
  { id := "1", topic := "test", state := TaskStateActive, nonce := "N", producer := "",
    consumer := "worker", produced := none, scheduled := some 0, consumed := some 5,
    deadline := some 100, payload := none, deferDur := .empty }

/-- Sample task in pending state with the same identity. -/
def promiseTargetPending : Task :=
  { promiseTargetActive with state := TaskStatePending, nonce := "" }

/-- Sample pending task living in topic "b", eligible since time 5. -/
def crossTopicTask : Task :=
  { id := "1", topic := "b", state := TaskStatePending, nonce := "", producer := "p",
    consumer := "", produced := some 0, scheduled := some 5, consumed := none,
    deadline := none, payload := none, deferDur := .empty }

/-- Sample pending task living in topic "a", scheduled before the Unix epoch. -/
def preEpochTask : Task :=
  { id := "2", topic := "a", state := TaskStatePending, nonce := "", producer := "p",
    consumer := "", produced := some 0, scheduled := some (-3), consumed := none,
    deadline := none, payload := none, deferDur := .empty }

/-- Sample promise used for polling. -/
def pollPromise : Promise :=
  { id := "", consumer := "c", deadline := some 60, timeout := .empty }

/-- Sample active task whose deadline lies before the Unix epoch. -/
def preEpochDeadlineTask : Task :=
  { id := "1", topic := "test", state := TaskStateActive, nonce := "N", producer := "",
    consumer := "worker", produced := some 0, scheduled := some 0, consumed := some 0,
    deadline := some (-1), payload := none, deferDur := .empty }

/-- The store resulting from a MemDB Commit call: the deferred `txn.Abort()`
discards the write transaction on every error path, leaving the store
unchanged. -/
def Memdb.commitStore (db : List Task) (id : String) (m : Commit) : List Task :=
  match Memdb.commit db id m with
  | .ok r => r.2
  | .error _ => db

/-- Sample commit carrying a nonce that matches no stored task. -/
def mismatchCommit : Commit :=
  { nonce := "X", topic := "", state := some TaskStateCompleted, scheduled := none,
    payload := none, deferDur := .empty }

/-- Sample commit carrying the nonce of the sample active task. -/
def matchingCommit : Commit :=
  { mismatchCommit with nonce := "N" }

/-- Engine operations quantified over by the store invariant claim. -/
inductive EngineOp where
  | insertTaskOp (t : Task)
  | upsertTaskOp (t : Task)
  | insertTasksOp (ts : List Task)
  | upsertTasksOp (ts : List Task)
  | pollOp (topic : String) (p : Promise) (now : Int) (fresh : String)
  | insertPromiseOp (p : Promise) (now : Int) (fresh : String)
  | upsertPromiseOp (p : Promise) (now : Int) (fresh : String)
  | deletePromiseOp (id : String)
  | deletePromisesOp (topic : String)
  | commitOp (id : String) (m : Commit)
  | choreOp (now retention : Int)

/-- The store after applying an engine operation to the MemDB store.  A
failed operation aborts its write transaction (`defer txn.Abort()`), leaving
the store unchanged. -/
def applyOp (db : List Task) : EngineOp → List Task
  | .insertTaskOp t =>
    match Memdb.insertTask db t with
    | .ok r => r.2
    | .error _ => db
  | .upsertTaskOp t => (Memdb.upsertTask db t).2
  | .insertTasksOp ts => (Memdb.insertTasks db ts).2
  | .upsertTasksOp ts => (Memdb.upsertTasks db ts).2
  | .pollOp topic p now fresh =>
    match Memdb.poll db topic p now fresh with
    | .ok r => r.2
    | .error _ => db
  | .insertPromiseOp p now fresh =>
    match Memdb.insertPromise db p now fresh with
    | .ok r => r.2
    | .error _ => db
  | .upsertPromiseOp p now fresh =>
    match Memdb.upsertPromise db p now fresh with
    | .ok r => r.2
    | .error _ => db
  | .deletePromiseOp id =>
    match Memdb.deletePromise db id with
    | .ok r => r.2
    | .error _ => db
  | .deletePromisesOp topic => (Memdb.deletePromises db topic).2
  | .commitOp id m =>
    match Memdb.commit db id m with
    | .ok r => r.2
    | .error _ => db
  | .choreOp now retention => Memdb.chore db now retention

/-- The nonce discipline of a single task: the nonce is non-empty iff the
state is active. -/
abbrev nonceStateOk (t : Task) : Prop :=
  (t.nonce ≠ "") ↔ (t.state = TaskStateActive)

/-- The claimed store invariant: every stored task respects the nonce
discipline. -/
abbrev NonceInv (db : List Task) : Prop :=
  ∀ t, t ∈ db → nonceStateOk t

/-- Side conditions of the amended invariant claim: inserted or upserted task
values must themselves respect the nonce discipline (normalization validates
neither the nonce nor its relation to the state), a freshly generated nonce
is non-empty (the generator emits exactly 16 characters), and a commit must
not target the active state (normalization only checks the range 0..3, and a
commit to the active state clears the nonce while making the task active). -/
def opSafe : EngineOp → Prop
  | .insertTaskOp t => nonceStateOk t
  | .upsertTaskOp t => nonceStateOk t
  | .insertTasksOp ts => ∀ t, t ∈ ts → nonceStateOk t
  | .upsertTasksOp ts => ∀ t, t ∈ ts → nonceStateOk t
  | .pollOp _ _ _ fresh => fresh ≠ ""
  | .insertPromiseOp _ _ fresh => fresh ≠ ""
  | .upsertPromiseOp _ _ fresh => fresh ≠ ""
  | .deletePromiseOp _ => True
  | .deletePromisesOp _ => True
  | .commitOp _ m => ∃ s, m.state = some s ∧ s ≠ TaskStateActive
  | .choreOp _ _ => True

/-- Sample commit targeting the active state, accepted by normalization. -/
def activeCommit : Commit :=
  { nonce := "", topic := "", state := some TaskStateActive, scheduled := none,
    payload := none, deferDur := .empty }

/-- Substring containment on strings, used to state that a serialized error
message contains a given phrase. -/
abbrev strContains (s sub : String) : Prop :=
  sub.data <:+: s.data

namespace Memdb

theorem xor_two_pow_63_of_lt {u : Nat} (hu : u < 2 ^ 63) :
    u ^^^ 2 ^ 63 = u + 2 ^ 63 := by
  have h63 : u.testBit 63 = false := Nat.testBit_lt_two_pow hu
  have horx : u ^^^ 2 ^ 63 = 2 ^ 63 ||| u := by
    apply Nat.eq_of_testBit_eq
    intro i
    rcases eq_or_ne i 63 with h | h
    · subst h
      simp [Nat.testBit_xor, Nat.testBit_lor, Nat.testBit_two_pow_self, h63]
    · simp [Nat.testBit_xor, Nat.testBit_lor, Nat.testBit_two_pow_of_ne (Ne.symm h)]
  have hor : 2 ^ 63 + u = 2 ^ 63 ||| u := by
    simpa using Nat.mul_add_lt_is_or hu 1
  rw [horx]
  omega

theorem xor_or_two_pow_63_cancel {r : Nat} (hr : r < 2 ^ 63) :
    (2 ^ 63 ||| r) ^^^ 2 ^ 63 = r := by
  apply Nat.eq_of_testBit_eq
  intro i
  rcases eq_or_ne i 63 with h | h
  · subst h
    simp [Nat.testBit_xor, Nat.testBit_lor, Nat.testBit_two_pow_self,
      Nat.testBit_lt_two_pow hr]
  · simp [Nat.testBit_xor, Nat.testBit_lor, Nat.testBit_two_pow_of_ne (Ne.symm h)]

theorem xor_two_pow_63_of_ge {u : Nat} (h1 : 2 ^ 63 ≤ u) (h2 : u < 2 ^ 64) :
    u ^^^ 2 ^ 63 = u - 2 ^ 63 := by
  have hr : u - 2 ^ 63 < 2 ^ 63 := by omega
  have hor : 2 ^ 63 + (u - 2 ^ 63) = 2 ^ 63 ||| (u - 2 ^ 63) := by
    simpa using Nat.mul_add_lt_is_or hr 1
  have hcancel := xor_or_two_pow_63_cancel hr
  have hu2 : 2 ^ 63 ||| (u - 2 ^ 63) = u := by omega
  rw [hu2] at hcancel
  exact hcancel

/-- Arithmetic characterization of the sign-bit flip: on the int64 range it
adds a bias of `2 ^ 63`, mapping the minimum value to 0 and the maximum to
the largest 64-bit value (exactly as the comment in the source states). -/
theorem flip_sign_bit_eq (v : Int) (h1 : -(2 ^ 63) ≤ v) (h2 : v < 2 ^ 63) :
    ((v % (2 : Int) ^ 64).toNat) ^^^ 2 ^ 63 = (v + 2 ^ 63).toNat := by
  rcases le_or_lt 0 v with hv | hv
  · have hmod : v % (2 : Int) ^ 64 = v := by omega
    rw [hmod]
    have hlt : v.toNat < 2 ^ 63 := by omega
    rw [xor_two_pow_63_of_lt hlt]
    omega
  · have hmod : v % (2 : Int) ^ 64 = v + 2 ^ 64 := by omega
    rw [hmod]
    have hge : 2 ^ 63 ≤ (v + 2 ^ 64).toNat := by omega
    have hlt : (v + 2 ^ 64).toNat < 2 ^ 64 := by omega
    rw [xor_two_pow_63_of_ge hge hlt]
    omega

theorem putUint64BE_eq_bytesBE (u : Nat) : putUint64BE u = bytesBE 8 u := by
  simp only [putUint64BE, bytesBE, List.cons.injEq, and_true]
  norm_num
  omega

theorem byteLexLe_bytesBE (k : Nat) :
    ∀ u w : Nat, u < 256 ^ k → w < 256 ^ k →
      (byteLexLe (bytesBE k u) (bytesBE k w) = true ↔ u ≤ w) := by
  induction k with
  | zero =>
    intro u w hu hw
    simp [bytesBE, byteLexLe]
    omega
  | succ k ih =>
    intro u w hu hw
    have hK : 0 < 256 ^ k := by positivity
    have hu2 : u % 256 ^ k < 256 ^ k := Nat.mod_lt _ hK
    have hw2 : w % 256 ^ k < 256 ^ k := Nat.mod_lt _ hK
    have hrec := ih (u % 256 ^ k) (w % 256 ^ k) hu2 hw2
    have hub : u / 256 ^ k < 256 := by
      apply Nat.div_lt_of_lt_mul
      calc u < 256 ^ (k + 1) := hu
        _ = 256 ^ k * 256 := by ring
    have hwb : w / 256 ^ k < 256 := by
      apply Nat.div_lt_of_lt_mul
      calc w < 256 ^ (k + 1) := hw
        _ = 256 ^ k * 256 := by ring
    simp only [bytesBE, byteLexLe]
    rw [Nat.mod_eq_of_lt hub, Nat.mod_eq_of_lt hwb]
    rcases lt_trichotomy (u / 256 ^ k) (w / 256 ^ k) with hlt | heq | hgt
    · rw [if_pos hlt]
      constructor
      · intro _
        by_contra hc
        have hle : w ≤ u := by omega
        have hdd : w / 256 ^ k ≤ u / 256 ^ k := Nat.div_le_div_right hle
        omega
      · intro _
        rfl
    · rw [if_neg (by omega), if_pos heq, hrec]
      have h1 := Nat.div_add_mod u (256 ^ k)
      have h2 := Nat.div_add_mod w (256 ^ k)
      rw [heq] at h1
      omega
    · rw [if_neg (by omega), if_neg (by omega)]
      constructor
      · intro h
        simp at h
      · intro h
        have hdd : u / 256 ^ k ≤ w / 256 ^ k := Nat.div_le_div_right h
        omega

/-- Order preservation of the full byte comparison on sign-flipped values. -/
theorem byteLexLe_putUint64BE {u w : Nat} (hu : u < 2 ^ 64) (hw : w < 2 ^ 64) :
    byteLexLe (putUint64BE u) (putUint64BE w) = true ↔ u ≤ w := by
  rw [putUint64BE_eq_bytesBE, putUint64BE_eq_bytesBE]
  exact byteLexLe_bytesBE 8 u w (by norm_num at hu ⊢; omega) (by norm_num at hw ⊢; omega)

end Memdb

/-- C7: For all 64-bit signed millisecond timestamps a and b, the 8-byte
encoding produced by encodeInt64 (flip the sign bit, then write big-endian)
preserves order exactly: a ≤ b if and only if encode(a) is lexicographically
less than or equal to encode(b), including across negative and positive
values. -/
theorem encodeInt64_preserves_order (a b : Int)
    (ha : -(2 ^ 63) ≤ a ∧ a < 2 ^ 63) (hb : -(2 ^ 63) ≤ b ∧ b < 2 ^ 63) :
    a ≤ b ↔ Memdb.byteLexLe (Memdb.encodeInt64 a) (Memdb.encodeInt64 b) = true := by
  obtain ⟨ha1, ha2⟩ := ha
  obtain ⟨hb1, hb2⟩ := hb
  unfold Memdb.encodeInt64
  rw [Memdb.flip_sign_bit_eq a ha1 ha2, Memdb.flip_sign_bit_eq b hb1 hb2]
  rw [Memdb.byteLexLe_putUint64BE (by omega) (by omega)]
  omega

/-- Witness for C7 at the concrete pair (-5, 3), crossing the sign. -/
theorem encodeInt64_preserves_order_witness :
    ((-(2 ^ 63) ≤ (-5 : Int) ∧ (-5 : Int) < 2 ^ 63) ∧
      (-(2 ^ 63) ≤ (3 : Int) ∧ (3 : Int) < 2 ^ 63)) ∧
      ((-5 : Int) ≤ 3 ↔
        Memdb.byteLexLe (Memdb.encodeInt64 (-5)) (Memdb.encodeInt64 3) = true) :=
  ⟨⟨⟨by norm_num, by norm_num⟩, ⟨by norm_num, by norm_num⟩⟩,
    encodeInt64_preserves_order (-5) 3 ⟨by norm_num, by norm_num⟩ ⟨by norm_num, by norm_num⟩⟩



/-- C6: evaluation of GetPromise at the inputs where the MemDB implementation
diverges from the claim.  The claim says GetPromise returns the projection of
a stored task exactly when its state is active; the MemDB code instead tests
for the pending state, so it reports not-found for an active task and returns
a projection for a pending one.  The MongoDB implementation of the same
engine interface agrees with the claim on both inputs. -/
theorem getPromise_state_check_divergence :
    Memdb.getPromise [promiseTargetActive] "1" = .error .notFound ∧
    Mongo.getPromise [promiseTargetActive] "1" =
      .ok { id := "1", consumer := "worker", deadline := some 100, timeout := .empty } ∧
    Memdb.getPromise [promiseTargetPending] "1" =
      .ok { id := "1", consumer := "worker", deadline := some 100, timeout := .empty } ∧
    Mongo.getPromise [promiseTargetPending] "1" = .error .notFound :=
  ⟨rfl, rfl, rfl, rfl⟩




/-- C1: evaluation of the MemDB Poll at the failing inputs.  Polling topic "a"
of a store whose only pending task lives in topic "b" claims and returns that
task: the LowerBound iterator keeps walking the index past the end of the
polled topic and the code never compares the topic of the returned candidate.
The claim instead requires not-found when the polled topic has no pending
task.  Moreover a pending task of the polled topic scheduled before the Unix
epoch sits below the seek position, so Poll reports not-found even though an
eligible task with scheduled ≤ now exists. -/
theorem poll_cross_topic_divergence :
    Memdb.poll [crossTopicTask] "a" pollPromise 10 ("F") =
      .ok (Memdb.updateOpsConsume crossTopicTask pollPromise 10 ("F"),
        [Memdb.updateOpsConsume crossTopicTask pollPromise 10 ("F")]) ∧
    crossTopicTask.topic = "b" ∧
    (Memdb.updateOpsConsume crossTopicTask pollPromise 10 ("F")).topic = "b" ∧
    Memdb.poll [preEpochTask] "a" pollPromise 10 ("F") = .error .notFound ∧
    preEpochTask.topic = "a" ∧ preEpochTask.scheduled = some (-3) :=
  ⟨rfl, rfl, rfl, rfl, rfl, rfl⟩

/-- An UpdateOne call whose filter matches no document reports zero
modifications and leaves the collection unchanged. -/
theorem updateOne_none_of_all (filt : Task → Bool) (upd : Task → Task)
    (col : List Task) (h : ∀ t, t ∈ col → filt t = false) :
    Mongo.updateOne filt upd col = (0, col) := by
  induction col with
  | nil => rfl
  | cons t ts ih =>
    have ht : filt t = false := h t (List.mem_cons_self t ts)
    have hts := ih (fun v hv => h v (List.mem_cons_of_mem t hv))
    simp [Mongo.updateOne, ht, hts]

/-- An UpdateOne call over a collection containing a matching document
modifies exactly one document: the first match, whose updated copy is in the
resulting collection. -/
theorem updateOne_found (filt : Task → Bool) (upd : Task → Task) :
    ∀ col : List Task, (∃ t, t ∈ col ∧ filt t = true) →
      ∃ t col2, t ∈ col ∧ filt t = true ∧
        Mongo.updateOne filt upd col = (1, col2) ∧ upd t ∈ col2 := by
  intro col
  induction col with
  | nil =>
    rintro ⟨t, ht, -⟩
    exact absurd ht (List.not_mem_nil t)
  | cons t ts ih =>
    rintro ⟨v, hv, hfv⟩
    by_cases ht : filt t = true
    · exact ⟨t, upd t :: ts, List.mem_cons_self t ts, ht,
        by simp [Mongo.updateOne, ht], List.mem_cons_self _ ts⟩
    · have ht2 : filt t = false := by
        simpa using ht
      have hvts : v ∈ ts := by
        rcases List.mem_cons.mp hv with h | h
        · exact absurd (h ▸ hfv) (by simp [ht2])
        · exact h
      obtain ⟨w, col2, hw, hfw, heq, hmem⟩ := ih ⟨v, hvts, hfv⟩
      exact ⟨w, t :: col2, List.mem_cons_of_mem t hw, hfw,
        by simp [Mongo.updateOne, ht2, heq], List.mem_cons_of_mem t hmem⟩

/-- C10: DeletePromise never fails for a well-formed id, in both engines.
The MemDB implementation reports zero deletions and leaves the store
unchanged when the task is missing or not active, and otherwise reports one
deletion and writes back the task reset to pending with its nonce cleared.
The MongoDB implementation issues a single UpdateOne on the filter
(id, state active): zero modifications and an unchanged collection when no
stored task with the id is active, and otherwise one modification whose
updated document is the matched task reset to pending with its nonce
cleared. -/
theorem deletePromise_total_contract (db : List Task) (id : String) :
    (∃ r, Memdb.deletePromise db id = .ok r) ∧
    (Memdb.txnFirstById db id = none → Memdb.deletePromise db id = .ok (0, db)) ∧
    (∀ t, Memdb.txnFirstById db id = some t → t.state ≠ TaskStateActive →
      Memdb.deletePromise db id = .ok (0, db)) ∧
    (∀ t, Memdb.txnFirstById db id = some t → t.state = TaskStateActive →
      Memdb.deletePromise db id =
        .ok (1, Memdb.txnInsert db (Memdb.updateOpsRecover t)) ∧
      (Memdb.updateOpsRecover t).state = TaskStatePending ∧
      (Memdb.updateOpsRecover t).nonce = "") ∧
    (∃ r, Mongo.deletePromise db id = .ok r) ∧
    ((∀ t, t ∈ db → t.id = id → t.state ≠ TaskStateActive) →
      Mongo.deletePromise db id = .ok (0, db)) ∧
    ((∃ t, t ∈ db ∧ t.id = id ∧ t.state = TaskStateActive) →
      ∃ t col2, t ∈ db ∧ t.id = id ∧ t.state = TaskStateActive ∧
        Mongo.deletePromise db id = .ok (1, col2) ∧
        Mongo.updateOpsRecover t ∈ col2 ∧
        (Mongo.updateOpsRecover t).state = TaskStatePending ∧
        (Mongo.updateOpsRecover t).nonce = "") := by
  refine ⟨?_, ?_, ?_, ?_, ?_, ?_, ?_⟩
  · cases h : Memdb.txnFirstById db id with
    | none => exact ⟨(0, db), by simp [Memdb.deletePromise, h]⟩
    | some t =>
      by_cases hs : t.state = TaskStateActive
      · exact ⟨(1, Memdb.txnInsert db (Memdb.updateOpsRecover t)),
          by simp [Memdb.deletePromise, h, hs]⟩
      · exact ⟨(0, db), by simp [Memdb.deletePromise, h, hs]⟩
  · intro h
    simp [Memdb.deletePromise, h]
  · intro t h hs
    simp [Memdb.deletePromise, h, hs]
  · intro t h hs
    refine ⟨by simp [Memdb.deletePromise, h, hs], rfl, rfl⟩
  · exact ⟨Mongo.updateOne (fun t => t.id == id && t.state == TaskStateActive)
      Mongo.updateOpsRecover db, rfl⟩
  · intro h
    have hfalse : ∀ t, t ∈ db → (t.id == id && t.state == TaskStateActive) = false := by
      intro t ht
      by_cases hid : t.id = id
      · have hst : t.state ≠ TaskStateActive := h t ht hid
        simp [hst]
      · simp [hid]
    unfold Mongo.deletePromise
    rw [updateOne_none_of_all _ _ db hfalse]
  · rintro ⟨t0, ht0, hid0, hst0⟩
    obtain ⟨t, col2, ht, hft, heq, hmem⟩ :=
      updateOne_found (fun t => t.id == id && t.state == TaskStateActive)
        Mongo.updateOpsRecover db ⟨t0, ht0, by simp [hid0, hst0]⟩
    have hprops : t.id = id ∧ t.state = TaskStateActive := by
      simpa [Bool.and_eq_true] using hft
    refine ⟨t, col2, ht, hprops.1, hprops.2, ?_, hmem, rfl, rfl⟩
    unfold Mongo.deletePromise
    rw [heq]

/-- Witness for C10 exercising the branches of both engines on concrete
stores. -/
theorem deletePromise_total_contract_witness :
    (Memdb.txnFirstById [promiseTargetActive] "1" = some promiseTargetActive ∧
      Memdb.deletePromise [promiseTargetActive] "1" =
        .ok (1, Memdb.txnInsert [promiseTargetActive]
          (Memdb.updateOpsRecover promiseTargetActive))) ∧
    Memdb.deletePromise ([] : List Task) "1" = .ok (0, []) ∧
    Memdb.deletePromise [promiseTargetPending] "1" = .ok (0, [promiseTargetPending]) ∧
    Mongo.deletePromise [promiseTargetPending] "1" = .ok (0, [promiseTargetPending]) ∧
    (∃ t col2, t ∈ [promiseTargetActive] ∧ t.id = "1" ∧
      t.state = TaskStateActive ∧
      Mongo.deletePromise [promiseTargetActive] "1" = .ok (1, col2) ∧
      Mongo.updateOpsRecover t ∈ col2 ∧
      (Mongo.updateOpsRecover t).state = TaskStatePending ∧
      (Mongo.updateOpsRecover t).nonce = "") :=
  ⟨⟨rfl, ((deletePromise_total_contract [promiseTargetActive] "1").2.2.2.1
      promiseTargetActive rfl rfl).1⟩,
    (deletePromise_total_contract [] "1").2.1 rfl,
    (deletePromise_total_contract [promiseTargetPending] "1").2.2.1
      promiseTargetPending rfl (by decide),
    (deletePromise_total_contract [promiseTargetPending] "1").2.2.2.2.2.1
      (by intro t ht hid; rw [List.mem_singleton.mp ht]; decide),
    (deletePromise_total_contract [promiseTargetActive] "1").2.2.2.2.2.2
      ⟨promiseTargetActive, List.mem_singleton.mpr rfl, rfl, rfl⟩⟩

/-- A recovered task is never deleted by the expiration sweep: recovery sets
the state to pending, while expiration only deletes completed tasks. -/
theorem choreExpires_updateOpsRecover (now retention : Int) (t : Task) :
    Memdb.choreExpires now retention (Memdb.updateOpsRecover t) = false := rfl


/-- C4 counterexample: a chore pass at time 1000 with retention 500 leaves an
active task with deadline -1 (before the Unix epoch, hence below the seek
position of the recovery sweep) completely unchanged, while the claim demands
that every active task whose deadline is not after the current time be reset
to pending with its nonce cleared. -/
theorem chore_skips_pre_epoch_deadline :
    Memdb.chore [preEpochDeadlineTask] 1000 500 = [preEpochDeadlineTask] ∧
    preEpochDeadlineTask.state = TaskStateActive ∧
    preEpochDeadlineTask.deadline = some (-1) ∧
    (-1 : Int) ≤ 1000 ∧
    preEpochDeadlineTask.nonce = "N" ∧
    Memdb.updateOpsRecover preEpochDeadlineTask ≠ preEpochDeadlineTask := by
  refine ⟨rfl, rfl, rfl, by norm_num, rfl, ?_⟩
  intro h
  have := congrArg Task.state h
  simp [Memdb.updateOpsRecover, preEpochDeadlineTask, TaskStatePending, TaskStateActive] at this

/-- C4 amended: a single chore pass resets every active task whose deadline is
set, at or after the Unix epoch, and not after the current time, to pending
with its nonce cleared; deletes every completed task whose consumed time is
set, at or after the epoch, and whose consumed plus retention is not after
the current time; and neither deletes nor modifies any other task — in
particular archived tasks survive unchanged. -/
theorem chore_amended_characterization (db : List Task) (now retention : Int) :
    (∀ u : Task, u ∈ Memdb.chore db now retention ↔
      ((∃ t, t ∈ db ∧ Memdb.choreRecovers now t = true ∧ u = Memdb.updateOpsRecover t) ∨
        (∃ t, t ∈ db ∧ Memdb.choreRecovers now t = false ∧
          Memdb.choreExpires now retention t = false ∧ u = t))) ∧
    (∀ t : Task, t ∈ db → t.state = TaskStateArchived → t ∈ Memdb.chore db now retention) := by
  constructor
  · intro u
    unfold Memdb.chore
    rw [List.mem_filter, List.mem_map]
    constructor
    · rintro ⟨⟨t, ht, hmap⟩, hkeep⟩
      by_cases hrec : Memdb.choreRecovers now t = true
      · left
        refine ⟨t, ht, hrec, ?_⟩
        rw [← hmap, if_pos hrec]
      · right
        have hrec2 : Memdb.choreRecovers now t = false := by
          simpa using hrec
        have hu : u = t := by
          rw [← hmap, if_neg hrec]
        refine ⟨t, ht, hrec2, ?_, hu⟩
        rw [← hu]
        simpa using hkeep
    · rintro (⟨t, ht, hrec, hu⟩ | ⟨t, ht, hrec, hexp, hu⟩)
      · refine ⟨⟨t, ht, ?_⟩, ?_⟩
        · rw [if_pos hrec, hu]
        · rw [hu]
          simp [choreExpires_updateOpsRecover]
      · refine ⟨⟨t, ht, ?_⟩, ?_⟩
        · rw [if_neg (by simp [hrec]), hu]
        · rw [hu]
          simp [hexp]
  · intro t ht hst
    unfold Memdb.chore
    rw [List.mem_filter, List.mem_map]
    have hrec : Memdb.choreRecovers now t = false := by
      unfold Memdb.choreRecovers
      have : (t.state == TaskStateActive) = false := by
        rw [hst]
        decide
      simp [this]
    have hexp : Memdb.choreExpires now retention t = false := by
      unfold Memdb.choreExpires
      have : (t.state == TaskStateCompleted) = false := by
        rw [hst]
        decide
      simp [this]
    refine ⟨⟨t, ht, ?_⟩, ?_⟩
    · rw [if_neg (by simp [hrec])]
    · simp [hexp]

/-- Witness for C4 amended on a concrete store: a timed-out active task is
recovered, an expired completed task is deleted, and an archived task is
kept. -/
theorem chore_amended_characterization_witness :
    (Memdb.updateOpsRecover
        { preEpochDeadlineTask with deadline := some 5 } ∈
      Memdb.chore [{ preEpochDeadlineTask with deadline := some 5 }] 1000 500) ∧
    ({ preEpochDeadlineTask with state := TaskStateArchived } ∈
      Memdb.chore [{ preEpochDeadlineTask with state := TaskStateArchived }] 1000 500) := by
  constructor
  · exact ((chore_amended_characterization
      [{ preEpochDeadlineTask with deadline := some 5 }] 1000 500).1 _).2
      (Or.inl ⟨_, by simp, by decide, rfl⟩)
  · exact (chore_amended_characterization
      [{ preEpochDeadlineTask with state := TaskStateArchived }] 1000 500).2 _
      (by simp) rfl

/-- A findOneAndUpdate call whose filter matches no document reports no match
and leaves the collection unchanged. -/
theorem findOneAndUpdate_none_of_all (filt : Task → Bool) (upd : Task → Task)
    (col : List Task) (h : ∀ t, t ∈ col → filt t = false) :
    Mongo.findOneAndUpdate filt upd col = (none, col) := by
  induction col with
  | nil => rfl
  | cons t ts ih =>
    have ht : filt t = false := h t (List.mem_cons_self t ts)
    have hts := ih (fun v hv => h v (List.mem_cons_of_mem t hv))
    simp [Mongo.findOneAndUpdate, ht, hts]

/-- A findOneAndUpdate call that reports a match found a document satisfying
the filter, and returned its updated copy. -/
theorem findOneAndUpdate_some_mem (filt : Task → Bool) (upd : Task → Task) :
    ∀ (col col2 : List Task) (v : Task),
      Mongo.findOneAndUpdate filt upd col = (some v, col2) →
      ∃ t, t ∈ col ∧ filt t = true ∧ v = upd t := by
  intro col
  induction col with
  | nil =>
    intro col2 v h
    simp [Mongo.findOneAndUpdate] at h
  | cons t ts ih =>
    intro col2 v h
    by_cases ht : filt t = true
    · refine ⟨t, List.mem_cons_self t ts, ht, ?_⟩
      simp [Mongo.findOneAndUpdate, ht] at h
      exact h.1.symm
    · have ht2 : filt t = false := by
        simpa using ht
      simp only [Mongo.findOneAndUpdate, ht2, Bool.false_eq_true, if_false,
        Prod.mk.injEq] at h
      obtain ⟨u, hu, hfu, hv⟩ := ih (Mongo.findOneAndUpdate filt upd ts).2 v
        (Prod.ext h.1 rfl)
      exact ⟨u, List.mem_cons_of_mem t hu, hfu, hv⟩

/-- C2: for every stored task and every commit whose nonce field is non-empty
and different from the current nonce of that task, Commit returns a conflict
error and leaves the store unchanged; Commit on an id with no stored task
returns not-found; and whenever Commit succeeds with a non-empty commit
nonce, the nonce of the task immediately before the call equalled the commit
nonce.  Stated for both the MemDB Commit and the MongoDB commitAtomic path. -/
theorem commit_nonce_contract (db : List Task) (id : String) (m : Commit) :
    (∀ t, Memdb.txnFirstById db id = some t → m.nonce ≠ "" → m.nonce ≠ t.nonce →
      Memdb.commit db id m = .error .conflict ∧ Memdb.commitStore db id m = db) ∧
    (Memdb.txnFirstById db id = none →
      Memdb.commit db id m = .error .notFound ∧ Memdb.commitStore db id m = db) ∧
    (∀ u db2, Memdb.commit db id m = .ok (u, db2) → m.nonce ≠ "" →
      ∃ t, Memdb.txnFirstById db id = some t ∧ t.nonce = m.nonce) ∧
    ((∃ t, t ∈ db ∧ t.id = id) →
      (∀ t, t ∈ db → t.id = id → m.nonce ≠ t.nonce) → m.nonce ≠ "" →
      Mongo.commitAtomic db id m = .error .conflict) ∧
    ((∀ t, t ∈ db → t.id ≠ id) → Mongo.commitAtomic db id m = .error .notFound) ∧
    (∀ u col2, Mongo.commitAtomic db id m = .ok (u, col2) → m.nonce ≠ "" →
      ∃ t, t ∈ db ∧ t.id = id ∧ t.nonce = m.nonce) := by
  refine ⟨?_, ?_, ?_, ?_, ?_, ?_⟩
  · intro t h hne hneq
    have hc : Memdb.commit db id m = .error .conflict := by
      simp [Memdb.commit, h, hne, hneq]
    exact ⟨hc, by simp [Memdb.commitStore, hc]⟩
  · intro h
    have hc : Memdb.commit db id m = .error .notFound := by
      simp [Memdb.commit, h]
    exact ⟨hc, by simp [Memdb.commitStore, hc]⟩
  · intro u db2 hok hne
    cases hfind : Memdb.txnFirstById db id with
    | none => simp [Memdb.commit, hfind] at hok
    | some t =>
      by_cases hc : m.nonce ≠ "" ∧ m.nonce ≠ t.nonce
      · simp [Memdb.commit, hfind, hc.1, hc.2] at hok
      · push_neg at hc
        exact ⟨t, rfl, (hc hne).symm⟩
  · rintro ⟨t0, ht0, hid0⟩ hall hne
    have hfalse : ∀ t, t ∈ db →
        (t.id == id && (m.nonce == "" || t.nonce == m.nonce)) = false := by
      intro t ht
      by_cases hid : t.id = id
      · have h1 : (m.nonce == "") = false := by
          simpa using hne
        have h2 : (t.nonce == m.nonce) = false := by
          simpa using fun hcontra => hall t ht hid hcontra.symm
        simp [h1, h2]
      · simp [hid]
    have hnone := findOneAndUpdate_none_of_all _ (fun t => Mongo.updateOpsCommit t m) db hfalse
    have hex : Mongo.existsMatch db (fun t => t.id == id) = true := by
      simp only [Mongo.existsMatch, List.any_eq_true]
      exact ⟨t0, ht0, by simpa using hid0⟩
    simp [Mongo.commitAtomic, hnone, hne, hex]
  · intro hall
    have hfalse : ∀ t, t ∈ db →
        (t.id == id && (m.nonce == "" || t.nonce == m.nonce)) = false := by
      intro t ht
      simp [hall t ht]
    have hnone := findOneAndUpdate_none_of_all _ (fun t => Mongo.updateOpsCommit t m) db hfalse
    have hex : Mongo.existsMatch db (fun t => t.id == id) = false := by
      simp only [Mongo.existsMatch, List.any_eq_false]
      intro t ht
      simpa using hall t ht
    simp [Mongo.commitAtomic, hnone, hex]
  · intro u col2 hok hne
    unfold Mongo.commitAtomic at hok
    rcases hfd : Mongo.findOneAndUpdate
        (fun t => t.id == id && (m.nonce == "" || t.nonce == m.nonce))
        (fun t => Mongo.updateOpsCommit t m) db with ⟨r, newCol⟩
    rw [hfd] at hok
    cases r with
    | none =>
      exfalso
      simp only [] at hok
      split at hok <;> simp at hok
    | some v =>
      obtain ⟨t, ht, hfilt, hv⟩ := findOneAndUpdate_some_mem _ _ db newCol v hfd
      have hmem : (t.id == id) = true ∧ (m.nonce == "" || t.nonce == m.nonce) = true := by
        simpa [Bool.and_eq_true] using hfilt
      refine ⟨t, ht, by simpa using hmem.1, ?_⟩
      have h2 := hmem.2
      rcases Bool.or_eq_true_iff.mp h2 with h3 | h3
      · exact absurd (by simpa using h3) hne
      · simpa using h3

/-- Witness for C2: the three outcome clauses exercised on concrete stores,
for both engines. -/
theorem commit_nonce_contract_witness :
    (Memdb.commit [promiseTargetActive] "1" mismatchCommit = .error .conflict ∧
      Memdb.commitStore [promiseTargetActive] "1" mismatchCommit = [promiseTargetActive]) ∧
    (Memdb.commit ([] : List Task) "1" mismatchCommit = .error .notFound ∧
      Memdb.commitStore ([] : List Task) "1" mismatchCommit = []) ∧
    (∃ t, Memdb.txnFirstById [promiseTargetActive] "1" = some t ∧
      t.nonce = matchingCommit.nonce) ∧
    Mongo.commitAtomic [promiseTargetActive] "1" mismatchCommit = .error .conflict ∧
    Mongo.commitAtomic ([] : List Task) "1" mismatchCommit = .error .notFound ∧
    (∃ t, t ∈ [promiseTargetActive] ∧ t.id = "1" ∧ t.nonce = matchingCommit.nonce) := by
  refine ⟨?_, ?_, ?_, ?_, ?_, ?_⟩
  · exact (commit_nonce_contract [promiseTargetActive] "1" mismatchCommit).1
      promiseTargetActive rfl (by decide) (by decide)
  · exact (commit_nonce_contract [] "1" mismatchCommit).2.1 rfl
  · exact (commit_nonce_contract [promiseTargetActive] "1" matchingCommit).2.2.1
      (Memdb.updateOpsCommit promiseTargetActive matchingCommit)
      (Memdb.txnInsert [promiseTargetActive]
        (Memdb.updateOpsCommit promiseTargetActive matchingCommit)) rfl (by decide)
  · exact (commit_nonce_contract [promiseTargetActive] "1" mismatchCommit).2.2.2.1
      ⟨promiseTargetActive, by simp, rfl⟩
      (by intro t ht hid; simp at ht; subst ht; decide) (by decide)
  · exact (commit_nonce_contract [] "1" mismatchCommit).2.2.2.2.1 (by simp)
  · exact (commit_nonce_contract [promiseTargetActive] "1" matchingCommit).2.2.2.2.2
      (Mongo.updateOpsCommit promiseTargetActive matchingCommit)
      [Mongo.updateOpsCommit promiseTargetActive matchingCommit] rfl (by decide)

/-- Field-level description of `updateOpsCommit`: the nonce is cleared, the
four optional updates are applied exactly when set, and every other field of
the task is copied unchanged. -/
theorem updateOpsCommit_fields (v : Task) (m : Commit) :
    (Memdb.updateOpsCommit v m).nonce = "" ∧
    (Memdb.updateOpsCommit v m).topic = (if m.topic = "" then v.topic else m.topic) ∧
    (Memdb.updateOpsCommit v m).state =
      (match m.state with | none => v.state | some s => s) ∧
    (Memdb.updateOpsCommit v m).scheduled =
      (match m.scheduled with | none => v.scheduled | some s => some s) ∧
    (Memdb.updateOpsCommit v m).payload =
      (match m.payload with | none => v.payload | some p => some p) ∧
    (Memdb.updateOpsCommit v m).id = v.id ∧
    (Memdb.updateOpsCommit v m).producer = v.producer ∧
    (Memdb.updateOpsCommit v m).consumer = v.consumer ∧
    (Memdb.updateOpsCommit v m).produced = v.produced ∧
    (Memdb.updateOpsCommit v m).consumed = v.consumed ∧
    (Memdb.updateOpsCommit v m).deadline = v.deadline ∧
    (Memdb.updateOpsCommit v m).deferDur = v.deferDur := by
  rcases hs : m.state with _ | s <;> rcases hsc : m.scheduled with _ | sc <;>
    rcases hp : m.payload with _ | p <;> by_cases ht : m.topic = "" <;>
      simp [Memdb.updateOpsCommit, hs, hsc, hp, ht]

/-- Shape of a successfully normalized commit: the nonce, topic and payload
are untouched, the state is defaulted to completed when absent, the defer
duration is folded into the scheduled time and then cleared. -/
theorem normalizeCommit_ok_shape (m0 : Commit) (now : Int) (m : Commit)
    (h : Middleware.normalizeCommit m0 now = .ok m) :
    m = { m0 with
      state := some (match m0.state with | none => TaskStateCompleted | some s => s),
      scheduled := (match m0.deferDur, m0.scheduled with
        | .value d, none => some (now + d)
        | _, _ => m0.scheduled),
      deferDur := .empty } := by
  rcases hs : m0.state with _ | s <;>
    rcases hd : m0.deferDur with _ | _ | d <;>
      rcases hsc : m0.scheduled with _ | sc <;>
        simp only [Middleware.normalizeCommit, hs, hd, hsc] at h <;>
          (split at h <;> simp_all)

/-- C3: for every stored task and every normalized commit that passes the
nonce check, the task written back and returned by Commit equals the old task
with the nonce cleared, the topic overwritten iff the commit topic is
non-empty, the state overwritten iff set (a commit arriving with no state is
normalized to the completed state), the scheduled time overwritten iff set,
the payload overwritten iff set, and all other fields unchanged. -/
theorem commit_applies_normalized_updates
    (db : List Task) (id : String) (m0 m : Commit) (now : Int) (t : Task)
    (hnorm : Middleware.normalizeCommit m0 now = .ok m)
    (hfind : Memdb.txnFirstById db id = some t)
    (hnonce : m.nonce = "" ∨ m.nonce = t.nonce) :
    ∃ u, Memdb.commit db id m = .ok (u, Memdb.txnInsert db u) ∧
      u = Memdb.updateOpsCommit t m ∧
      u.nonce = "" ∧
      u.topic = (if m.topic = "" then t.topic else m.topic) ∧
      u.state = (match m0.state with | none => TaskStateCompleted | some s => s) ∧
      u.scheduled = (match m.scheduled with | none => t.scheduled | some s => some s) ∧
      u.payload = (match m.payload with | none => t.payload | some p => some p) ∧
      u.id = t.id ∧ u.producer = t.producer ∧ u.consumer = t.consumer ∧
      u.produced = t.produced ∧ u.consumed = t.consumed ∧ u.deadline = t.deadline ∧
      u.deferDur = t.deferDur := by
  have hshape := normalizeCommit_ok_shape m0 now m hnorm
  have hstate : m.state = some (match m0.state with | none => TaskStateCompleted | some s => s) := by
    rw [hshape]
  obtain ⟨f1, f2, f3, f4, f5, f6, f7, f8, f9, f10, f11, f12⟩ :=
    updateOpsCommit_fields t m
  refine ⟨Memdb.updateOpsCommit t m, ?_, rfl, f1, f2, ?_, f4, f5, f6, f7, f8, f9, f10, f11, f12⟩
  · have hcond : ¬(m.nonce ≠ "" ∧ m.nonce ≠ t.nonce) := by
      rcases hnonce with h | h
      · intro hc
        exact hc.1 h
      · intro hc
        exact hc.2 h
    simp [Memdb.commit, hfind, hcond]
  · rw [f3, hstate]

/-- Witness for C3: a commit with no state and a fresh payload, applied to
the sample active task through normalization, Commit and the write-back. -/
theorem commit_applies_normalized_updates_witness :
    (Middleware.normalizeCommit
        { nonce := "N", topic := "done", state := none, scheduled := none,
            payload := some ("pp"), deferDur := .empty } 7 =
      .ok { nonce := "N", topic := "done", state := some TaskStateCompleted,
              scheduled := none, payload := some ("pp"), deferDur := .empty }) ∧
    (∃ u, Memdb.commit [promiseTargetActive] "1"
        { nonce := "N", topic := "done", state := some TaskStateCompleted,
            scheduled := none, payload := some ("pp"), deferDur := .empty } =
        .ok (u, Memdb.txnInsert [promiseTargetActive] u) ∧
      u = Memdb.updateOpsCommit promiseTargetActive
        { nonce := "N", topic := "done", state := some TaskStateCompleted,
            scheduled := none, payload := some ("pp"), deferDur := .empty } ∧
      u.nonce = "" ∧
      u.topic = (if ("done" : String) = "" then promiseTargetActive.topic else ("done")) ∧
      u.state = TaskStateCompleted ∧
      u.scheduled = promiseTargetActive.scheduled ∧
      u.payload = some ("pp") ∧
      u.id = promiseTargetActive.id ∧ u.producer = promiseTargetActive.producer ∧
      u.consumer = promiseTargetActive.consumer ∧
      u.produced = promiseTargetActive.produced ∧
      u.consumed = promiseTargetActive.consumed ∧
      u.deadline = promiseTargetActive.deadline ∧
      u.deferDur = promiseTargetActive.deferDur) := by
  refine ⟨rfl, ?_⟩
  exact commit_applies_normalized_updates [promiseTargetActive] "1"
    { nonce := "N", topic := "done", state := none, scheduled := none,
        payload := some ("pp"), deferDur := .empty }
    { nonce := "N", topic := "done", state := some TaskStateCompleted,
        scheduled := none, payload := some ("pp"), deferDur := .empty }
    7 promiseTargetActive rfl rfl (Or.inr rfl)

/-- C8 counterexample: the commit middleware does not reject an empty request
body.  On the empty body (`ShouldBindJSON` returning `io.EOF`, whose result
the middleware deliberately ignores) it succeeds and produces the normalized
zero commit, which targets the completed state — while the claim demands a
bad-request error mentioning "missing request body". -/
theorem commit_middleware_accepts_empty_body :
    Middleware.commitMiddleware .eof 0 =
      .ok { nonce := "", topic := "", state := some TaskStateCompleted,
              scheduled := none, payload := none, deferDur := .empty } := rfl

/-- C8 amended: an empty request body is rejected with a 400 error whose
message contains "missing request body" by the task and batch-task
normalization middlewares only; the promise and commit middlewares ignore the
body binding failure and proceed with the zero value, which normalization
turns into a promise with the default timeout, respectively a commit to the
completed state. -/
theorem empty_body_middleware_amended (id topic : String) (now : Int) :
    Middleware.taskMiddleware .eof id topic now =
      .error (Middleware.wrappedError .badRequest ("missing request body")) ∧
    Middleware.tasksMiddleware .eof topic now =
      .error (Middleware.wrappedError .badRequest ("missing request body")) ∧
    (Middleware.wrappedError .badRequest ("missing request body")).code = 400 ∧
    strContains (Middleware.wrappedError .badRequest ("missing request body")).message
      ("missing request body") ∧
    (∃ p, Middleware.promiseMiddleware .eof id now = .ok p ∧
      p.deadline = some (now + 600000)) ∧
    Middleware.commitMiddleware .eof now =
      .ok { nonce := "", topic := "", state := some TaskStateCompleted,
              scheduled := none, payload := none, deferDur := .empty } := by
  refine ⟨rfl, rfl, rfl, ?_, ?_, rfl⟩
  · decide
  · by_cases h : id = ""
    · subst h
      exact ⟨_, rfl, rfl⟩
    · refine ⟨{ id := id, consumer := "", deadline := some (now + 600000),
                  timeout := .empty }, ?_, rfl⟩
      simp [Middleware.promiseMiddleware, Middleware.normalizePromise,
        Middleware.zeroPromise, Middleware.DefaultTimeout, h]

/-- C9: the messages attached to conflict errors by the controllers.  The
commit (PATCH task) conflict and the insert-task conflict carry the phrases
the claim states; the insert-promise conflict instead carries "a promise for
the same task already exists", not the claimed "the target task is not in
pending state" (which is the phrase the controller test suite expects). -/
theorem conflict_message_decorations :
    Controller.patchTaskError .conflict =
      { code := 409, message := "conflict: the task may have been modified by others" } ∧
    strContains (Controller.patchTaskError .conflict).message
      ("the task may have been modified by others") ∧
    Controller.postTaskError .conflict =
      { code := 409, message := "conflict: a task with the same ID already exists" } ∧
    strContains (Controller.postTaskError .conflict).message
      ("a task with the same ID already exists") ∧
    Controller.postPromiseError .conflict =
      { code := 409, message := "conflict: a promise for the same task already exists" } ∧
    ¬ strContains (Controller.postPromiseError .conflict).message
      ("the target task is not in pending state") := by
  refine ⟨rfl, ?_, rfl, ?_, rfl, ?_⟩ <;> decide

theorem nonceStateOk_updateOpsRecover (t : Task) :
    nonceStateOk (Memdb.updateOpsRecover t) := by
  simp [nonceStateOk, Memdb.updateOpsRecover, TaskStatePending, TaskStateActive]

theorem nonceStateOk_updateOpsConsume (t : Task) (p : Promise) (now : Int)
    (fresh : String) (h : fresh ≠ "") :
    nonceStateOk (Memdb.updateOpsConsume t p now fresh) := by
  simp [nonceStateOk, Memdb.updateOpsConsume, h]

theorem nonceStateOk_updateOpsCommit (t : Task) (m : Commit)
    (h : ∃ s, m.state = some s ∧ s ≠ TaskStateActive) :
    nonceStateOk (Memdb.updateOpsCommit t m) := by
  obtain ⟨s, hs, hne⟩ := h
  obtain ⟨f1, -, f3, -⟩ := updateOpsCommit_fields t m
  rw [nonceStateOk, f1, f3, hs]
  simp [hne]

theorem NonceInv_txnInsert {db : List Task} {u : Task}
    (hdb : NonceInv db) (hu : nonceStateOk u) :
    NonceInv (Memdb.txnInsert db u) := by
  intro t ht
  unfold Memdb.txnInsert at ht
  split at ht
  · obtain ⟨v, hv, hvt⟩ := List.mem_map.mp ht
    by_cases h : v.id = u.id
    · rw [if_pos h] at hvt
      exact hvt ▸ hu
    · rw [if_neg h] at hvt
      exact hvt ▸ hdb v hv
  · rcases List.mem_append.mp ht with h | h
    · exact hdb t h
    · rw [List.mem_singleton.mp h]
      exact hu

theorem NonceInv_insertTasks {db : List Task} (ts : List Task)
    (hdb : NonceInv db) (hts : ∀ t, t ∈ ts → nonceStateOk t) :
    NonceInv (Memdb.insertTasks db ts).2 := by
  induction ts generalizing db with
  | nil => exact hdb
  | cons t rest ih =>
    unfold Memdb.insertTasks
    split
    · exact ih hdb (fun v hv => hts v (List.mem_cons_of_mem t hv))
    · have hnewDb : NonceInv (db ++ [t]) := by
        intro v hv
        rcases List.mem_append.mp hv with h | h
        · exact hdb v h
        · rw [List.mem_singleton.mp h]
          exact hts t (List.mem_cons_self t rest)
      exact ih hnewDb (fun v hv => hts v (List.mem_cons_of_mem t hv))

theorem NonceInv_upsertTasks {db : List Task} (ts : List Task)
    (hdb : NonceInv db) (hts : ∀ t, t ∈ ts → nonceStateOk t) :
    NonceInv (Memdb.upsertTasks db ts).2 := by
  induction ts generalizing db with
  | nil => exact hdb
  | cons t rest ih =>
    unfold Memdb.upsertTasks
    exact ih (NonceInv_txnInsert hdb (hts t (List.mem_cons_self t rest)))
      (fun v hv => hts v (List.mem_cons_of_mem t hv))

theorem NonceInv_recover_foldl {db : List Task} (xs : List Task)
    (hdb : NonceInv db) :
    NonceInv (xs.foldl (fun acc t => Memdb.txnInsert acc (Memdb.updateOpsRecover t)) db) := by
  induction xs generalizing db with
  | nil => exact hdb
  | cons t rest ih =>
    exact ih (NonceInv_txnInsert hdb (nonceStateOk_updateOpsRecover t))

theorem NonceInv_chore {db : List Task} (now retention : Int)
    (hdb : NonceInv db) : NonceInv (Memdb.chore db now retention) := by
  intro t ht
  unfold Memdb.chore at ht
  obtain ⟨hmem, -⟩ := List.mem_filter.mp ht
  obtain ⟨w, hw, hwt⟩ := List.mem_map.mp hmem
  by_cases hrec : Memdb.choreRecovers now w = true
  · rw [if_pos hrec] at hwt
    exact hwt ▸ nonceStateOk_updateOpsRecover w
  · rw [if_neg hrec] at hwt
    exact hwt ▸ hdb w hw

/-- C5 amended: every engine operation applied to normalized inputs preserves
the invariant "nonce non-empty iff state active", provided additionally that
inserted or upserted tasks themselves satisfy the invariant (normalization
does not relate the nonce and state fields of an incoming task) and that
commits do not target the active state (normalization accepts state 1, and
such a commit produces an active task with an empty nonce).  The fresh-nonce
hypotheses hold for the generator, which emits 16-character strings. -/
theorem engine_ops_preserve_nonce_invariant (db : List Task) (op : EngineOp)
    (hdb : NonceInv db) (hop : opSafe op) : NonceInv (applyOp db op) := by
  cases op with
  | insertTaskOp t =>
    simp only [applyOp]
    cases hres : Memdb.insertTask db t with
    | error e => exact hdb
    | ok r =>
      show NonceInv r.2
      unfold Memdb.insertTask at hres
      split at hres
      · exact absurd hres (by simp)
      · have hr : r.2 = db ++ [t] := by
          cases hres
          rfl
        rw [hr]
        intro v hv
        rcases List.mem_append.mp hv with h | h
        · exact hdb v h
        · rw [List.mem_singleton.mp h]
          exact hop
  | upsertTaskOp t =>
    exact NonceInv_txnInsert hdb hop
  | insertTasksOp ts =>
    exact NonceInv_insertTasks ts hdb hop
  | upsertTasksOp ts =>
    exact NonceInv_upsertTasks ts hdb hop
  | pollOp topic p now fresh =>
    simp only [applyOp]
    cases hres : Memdb.poll db topic p now fresh with
    | error e => exact hdb
    | ok r =>
      show NonceInv r.2
      unfold Memdb.poll at hres
      cases hsel : Memdb.lowerBoundPendingFirst db topic with
      | none =>
        rw [hsel] at hres
        simp at hres
      | some t =>
        rw [hsel] at hres
        by_cases hs : Memdb.schedAfter t.scheduled now = true
        · simp [hs] at hres
        · simp only [Bool.not_eq_true] at hs
          simp [hs] at hres
          rw [← hres]
          exact NonceInv_txnInsert hdb (nonceStateOk_updateOpsConsume t p now fresh hop)
  | insertPromiseOp p now fresh =>
    simp only [applyOp]
    cases hres : Memdb.insertPromise db p now fresh with
    | error e => exact hdb
    | ok r =>
      show NonceInv r.2
      unfold Memdb.insertPromise at hres
      cases hsel : Memdb.txnFirstById db p.id with
      | none =>
        rw [hsel] at hres
        simp at hres
      | some t =>
        rw [hsel] at hres
        by_cases hs : t.state = TaskStatePending
        · simp [hs] at hres
          rw [← hres]
          exact NonceInv_txnInsert hdb (nonceStateOk_updateOpsConsume t p now fresh hop)
        · simp [hs] at hres
  | upsertPromiseOp p now fresh =>
    simp only [applyOp]
    cases hres : Memdb.upsertPromise db p now fresh with
    | error e => exact hdb
    | ok r =>
      show NonceInv r.2
      unfold Memdb.upsertPromise at hres
      cases hsel : Memdb.txnFirstById db p.id with
      | none =>
        rw [hsel] at hres
        simp at hres
      | some t =>
        rw [hsel] at hres
        simp at hres
        rw [← hres]
        exact NonceInv_txnInsert hdb (nonceStateOk_updateOpsConsume t p now fresh hop)
  | deletePromiseOp id =>
    simp only [applyOp]
    cases hres : Memdb.deletePromise db id with
    | error e => exact hdb
    | ok r =>
      show NonceInv r.2
      unfold Memdb.deletePromise at hres
      cases hsel : Memdb.txnFirstById db id with
      | none =>
        rw [hsel] at hres
        simp at hres
        rw [← hres]
        exact hdb
      | some t =>
        rw [hsel] at hres
        by_cases hs : t.state = TaskStateActive
        · simp [hs] at hres
          rw [← hres]
          exact NonceInv_txnInsert hdb (nonceStateOk_updateOpsRecover t)
        · simp [hs] at hres
          rw [← hres]
          exact hdb
  | deletePromisesOp topic =>
    exact NonceInv_recover_foldl _ hdb
  | commitOp id m =>
    simp only [applyOp]
    cases hres : Memdb.commit db id m with
    | error e => exact hdb
    | ok r =>
      show NonceInv r.2
      unfold Memdb.commit at hres
      cases hsel : Memdb.txnFirstById db id with
      | none =>
        rw [hsel] at hres
        simp at hres
      | some t =>
        rw [hsel] at hres
        by_cases hc : m.nonce ≠ "" ∧ m.nonce ≠ t.nonce
        · simp [hc] at hres
        · simp [hc] at hres
          rw [← hres]
          exact NonceInv_txnInsert hdb (nonceStateOk_updateOpsCommit t m hop)
  | choreOp now retention =>
    exact NonceInv_chore now retention hdb

/-- Witness for C5 amended: the invariant is preserved on a concrete store by
a poll and by a commit to the completed state. -/
theorem engine_ops_preserve_nonce_invariant_witness :
    (NonceInv [promiseTargetPending] ∧ ("F" : String) ≠ "" ∧
      NonceInv (applyOp [promiseTargetPending] (.pollOp ("test") pollPromise 10 ("F")))) ∧
    (NonceInv [promiseTargetActive] ∧
      NonceInv (applyOp [promiseTargetActive] (.commitOp ("1") matchingCommit))) :=
  ⟨⟨by decide, by decide,
      engine_ops_preserve_nonce_invariant [promiseTargetPending]
        (.pollOp ("test") pollPromise 10 ("F")) (by decide)
        (show ("F" : String) ≠ "" from by decide)⟩,
    ⟨by decide,
      engine_ops_preserve_nonce_invariant [promiseTargetActive]
        (.commitOp ("1") matchingCommit) (by decide)
        ⟨TaskStateCompleted, rfl, by decide⟩⟩⟩

/-- C5 counterexample: the invariant fails after a commit that targets the
active state.  The store holds one well-formed active task; the commit passes
normalization unchanged (state 1 is within range) and carries no nonce; the
resulting store holds an active task with an empty nonce. -/
theorem commit_to_active_breaks_nonce_invariant :
    NonceInv [promiseTargetActive] ∧
    Middleware.normalizeCommit activeCommit 0 = .ok activeCommit ∧
    ¬ NonceInv (applyOp [promiseTargetActive] (.commitOp ("1") activeCommit)) := by
  refine ⟨by decide, rfl, by decide⟩

end Ratus
